import Mathlib

/-!
Verification development for the ratelim repository (src/src/lib.rs and
src/src/logic.rs): a poll-based admission gate (Limiter) over a pluggable
policy (the Logic trait) with a time-ordered delayed-release scheduler
(a BinaryHeap of HeapValue records with a reversed comparator).

Modelling conventions:
- Instants and Durations are natural numbers (Instant is monotone and only
  compared and added to Durations in the source).
- Rust u64 arithmetic is modelled with checked semantics: an operation whose
  u64 result would overflow or underflow returns none, modelling the Rust
  arithmetic panic (debug builds panic; either way the result is an
  arithmetic fault, not a clamped value).
- The BinaryHeap is modelled by its documented behaviour: a multiset whose
  pop operation removes a greatest element under the Ord instance of the
  stored values. Tie-break among equal keys is unspecified in Rust; the model
  fixes one refinement (prefer the earlier list position).
- Each pending-release record carries a ghost identifier (the push counter of
  the wrapper) used only to state exactly-once properties; it does not
  influence any computation.
- The two Instant.now calls inside one locked critical section (one in
  cleanup, one in add) are modelled by the single attempt time of that
  critical section.
-/

/-- The number of values of a Rust u64, that is 2 ^ 64. -/
def u64Bound : Nat := 18446744073709551616

/-- Model of the Logic trait of src/src/logic.rs. The mutating methods
return an Option: none models a Rust arithmetic panic inside the method. -/
structure Logic (σ St : Type) where
  is_ready : σ → Bool
  add_for : σ → St → Option (σ × Nat)
  free : σ → St → Option σ

/-- Model of the Timeout policy struct of src/src/logic.rs. -/
structure Timeout where
  is_timed_out : Bool
  timeout : Nat
deriving DecidableEq

/-- Timeout.new from src/src/logic.rs: cooldown flag starts cleared. -/
def Timeout.new (t : Nat) : Timeout := ⟨false, t⟩

/-- The impl of Logic for Timeout from src/src/logic.rs: is_ready is the
negated cooldown flag, add_for sets the flag and returns the fixed timeout,
free clears the flag. No arithmetic, hence never a fault. -/
def timeoutLogic : Logic Timeout Unit where
  is_ready t := !t.is_timed_out
  add_for t _ := some (⟨true, t.timeout⟩, t.timeout)
  free t _ := some ⟨false, t.timeout⟩

/-- Model of the QuotaPer policy struct of src/src/logic.rs. The field
state is the u64 counter of outstanding weight. -/
structure QuotaPer where
  quota : Nat
  state : Nat
  timeout : Nat
deriving DecidableEq

/-- QuotaPer.new from src/src/logic.rs: the counter starts at 0. -/
def QuotaPer.new (q t : Nat) : QuotaPer := ⟨q, 0, t⟩

/-- The impl of Logic for QuotaPer from src/src/logic.rs: is_ready is
state < quota; add_for adds the weight to the counter (u64 addition,
no overflow guard) and returns the fixed timeout; free subtracts the weight
from the counter (u64 subtraction, no clamping). The checked u64 semantics
makes an overflowing addition or underflowing subtraction a fault (none). -/
def quotaPerLogic : Logic QuotaPer Nat where
  is_ready q := decide (q.state < q.quota)
  add_for q w :=
    if q.state + w < u64Bound then some (⟨q.quota, q.state + w, q.timeout⟩, q.timeout)
    else none
  free q w :=
    if w ≤ q.state then some ⟨q.quota, q.state - w, q.timeout⟩
    else none

/-- A pending-release record, modelling the (Instant, State) pair stored in
HeapValue in src/src/lib.rs. The field id is a ghost identifier (the push
counter at creation time) used only to state exactly-once properties. -/
structure HeapRec (St : Type) where
  due : Nat
  state : St
  id : Nat
deriving DecidableEq

/-- The reversed comparison of HeapValue (src/src/lib.rs, impl Ord):
cmp(self, other) = other.0.0.cmp(self.0.0), comparing only the due
timestamps, so the greatest element under this order is the one with the
smallest due timestamp. -/
def hvCmp {St : Type} (a b : HeapRec St) : Ordering := compare b.due a.due

/-- The overridden max of HeapValue (src/src/lib.rs):
if self.0.0 < other.0.0 then self else other. -/
def hvMax {St : Type} (a b : HeapRec St) : HeapRec St :=
  if a.due < b.due then a else b

/-- The overridden min of HeapValue (src/src/lib.rs):
if self.0.0 < other.0.0 then other else self. -/
def hvMin {St : Type} (a b : HeapRec St) : HeapRec St :=
  if a.due < b.due then b else a

/-- Pop of the modelled BinaryHeap: remove a greatest element under hvCmp,
which is an element with the least due timestamp. Among equal keys the
earlier list position is preferred (Rust leaves the tie-break unspecified). -/
def popGreatest {St : Type} : List (HeapRec St) → Option (HeapRec St × List (HeapRec St))
  | [] => none
  | x :: xs =>
    match popGreatest xs with
    | none => some (x, xs)
    | some (m, rest) =>
      if hvCmp x m = Ordering.lt then some (m, x :: rest) else some (x, xs)

/-- Draining the modelled heap with bounded fuel: repeatedly pop a greatest
element under hvCmp. With fuel at least the list length this drains fully. -/
def drainFuel {St : Type} : Nat → List (HeapRec St) → List (HeapRec St)
  | 0, _ => []
  | fuel + 1, l =>
    match popGreatest l with
    | none => []
    | some (r, rest) => r :: drainFuel fuel rest

/-- Full drain of the modelled heap: the sequence of repeated pop-earliest
results. -/
def drain {St : Type} (l : List (HeapRec St)) : List (HeapRec St) :=
  drainFuel l.length l

/-- Model of the LogicWrapper struct of src/src/lib.rs: the policy state and
the delayed_frees heap (as a multiset of records). The field nextId is the
ghost push counter used to give each pushed record a fresh identifier. -/
structure LogicWrapper (σ St : Type) where
  logic : σ
  delayed_frees : List (HeapRec St)
  nextId : Nat

/-- LogicWrapper.new from src/src/lib.rs: empty heap. -/
def LogicWrapper.new {σ St : Type} (l : σ) : LogicWrapper σ St := ⟨l, [], 0⟩

/-- Folding Policy.free over a list of states, propagating a fault. -/
def foldFrees {σ St : Type} (L : Logic σ St) : σ → List St → Option σ
  | l, [] => some l
  | l, s :: rest =>
    match L.free l s with
    | none => none
    | some l2 => foldFrees L l2 rest

/-- The body of LogicWrapper.cleanup (src/src/lib.rs) with bounded fuel:
while the heap is non-empty and its earliest record is due (due ≤ now),
call Policy.free on its state and pop it; stop at the first record that is
still in the future. Each iteration pops one record, so the initial heap
length bounds the iteration count; cleanup runs this with that fuel. -/
def cleanupFuel {σ St : Type} (L : Logic σ St) (now : Nat) :
    Nat → LogicWrapper σ St → Option (LogicWrapper σ St × List (HeapRec St))
  | 0, lw => some (lw, [])
  | fuel + 1, lw =>
    match popGreatest lw.delayed_frees with
    | none => some (lw, [])
    | some (r, rest) =>
      if now < r.due then some (lw, [])
      else
        match L.free lw.logic r.state with
        | none => none
        | some l2 =>
          match cleanupFuel L now fuel ⟨l2, rest, lw.nextId⟩ with
          | none => none
          | some (lw2, freed) => some (lw2, r :: freed)

/-- LogicWrapper.cleanup from src/src/lib.rs; the second component of the
result is the list of records freed, in processing order. -/
def cleanup {σ St : Type} (L : Logic σ St) (now : Nat) (lw : LogicWrapper σ St) :
    Option (LogicWrapper σ St × List (HeapRec St)) :=
  cleanupFuel L now lw.delayed_frees.length lw

/-- One pass of the body of Limiter.sync (src/src/lib.rs) under the lock at
time now: cleanup, then the readiness check (LogicWrapper.ready); if ready,
LogicWrapper.add pushes one record due at now plus the duration returned by
add_for. The third component of the result is the record pushed, if the
attempt was admitted. -/
def syncAttempt {σ St : Type} (L : Logic σ St) (now : Nat) (st : St) (lw : LogicWrapper σ St) :
    Option (LogicWrapper σ St × List (HeapRec St) × Option (HeapRec St)) :=
  match cleanup L now lw with
  | none => none
  | some (lw1, freed) =>
    if L.is_ready lw1.logic then
      match L.add_for lw1.logic st with
      | none => none
      | some (l2, dur) =>
        some (⟨l2, ⟨now + dur, st, lw1.nextId⟩ :: lw1.delayed_frees, lw1.nextId + 1⟩,
          freed, some ⟨now + dur, st, lw1.nextId⟩)
    else some (lw1, freed, none)

/-- A run of the gate: the sequence of locked critical sections, each an
attempt (time, caller state) executed by syncAttempt. The lock serialises
the critical sections, so any concurrent execution is one such sequence.
Returns the final wrapper, the free events (time, record) and the
admission events (time, record pushed). -/
def runTrace {σ St : Type} (L : Logic σ St) (lw : LogicWrapper σ St) :
    List (Nat × St) →
    Option (LogicWrapper σ St × List (Nat × HeapRec St) × List (Nat × HeapRec St))
  | [] => some (lw, [], [])
  | (t, st) :: rest =>
    match syncAttempt L t st lw with
    | none => none
    | some (lw1, freed, pushed) =>
      match runTrace L lw1 rest with
      | none => none
      | some (lwf, fes, aes) =>
        some (lwf, freed.map (fun r => (t, r)) ++ fes,
          (match pushed with
           | some r => [(t, r)]
           | none => []) ++ aes)

/-- The retry loop of Limiter.sync for a single caller: at each attempt time
in the list, run one locked pass; on admission return the admission time,
otherwise sleep until the next attempt time and retry. The result none
models a fault inside a policy method; some (none, lw) means the attempt
list was exhausted with the caller still blocked and retrying. -/
def syncLoop {σ St : Type} (L : Logic σ St) (st : St) :
    List Nat → LogicWrapper σ St → Option (Option Nat × LogicWrapper σ St)
  | [], lw => some (none, lw)
  | t :: ts, lw =>
    match syncAttempt L t st lw with
    | none => none
    | some (lw1, _, some _) => some (some t, lw1)
    | some (lw1, _, none) => syncLoop L st ts lw1

/-- Sum of the weights of a list of QuotaPer records. -/
def weightSum (rs : List (HeapRec Nat)) : Nat := (rs.map HeapRec.state).sum

/-- Sum of the weights of a list of timestamped QuotaPer events. -/
def weightSumE (es : List (Nat × HeapRec Nat)) : Nat :=
  (es.map (fun p => p.2.state)).sum

/-- Program points of the body of the loop in Limiter.sync
(src/src/lib.rs, lines 45-58). -/
inductive SyncPoint : Type
  | awaitLock
  | readyCheck
  | sleeping
  | admitted
deriving DecidableEq

/-- Whether the mutex guard named internal is alive (the lock is held) at
each program point of the loop body. The guard is created by the lock call
at the top of the loop body and, by the scoping of the source, it is dropped
only when control leaves the loop body: at the continue statement after the
poll sleep, or at the break after add. The sleep awaits while the guard is
still in scope, so the lock is held at the sleeping point. -/
def lockHeld : SyncPoint → Bool
  | SyncPoint.awaitLock => false
  | SyncPoint.readyCheck => true
  | SyncPoint.sleeping => true
  | SyncPoint.admitted => false

/-- Control flow of one iteration of the loop in Limiter.sync, as a function
of the readiness result: acquiring the lock leads to the readiness check;
when not ready the caller proceeds to the poll sleep and then back to
re-acquire the lock; when ready it admits and leaves the loop. -/
def syncStep : Bool → SyncPoint → SyncPoint
  | _, SyncPoint.awaitLock => SyncPoint.readyCheck
  | true, SyncPoint.readyCheck => SyncPoint.admitted
  | false, SyncPoint.readyCheck => SyncPoint.sleeping
  | _, SyncPoint.sleeping => SyncPoint.awaitLock
  | _, SyncPoint.admitted => SyncPoint.admitted

/-- A cons cell always pops some element. -/
theorem popGreatest_cons_isSome {St : Type} (x : HeapRec St) (xs : List (HeapRec St)) :
    (popGreatest (x :: xs)).isSome = true := by
  cases h : popGreatest xs with
  | none => simp [popGreatest, h]
  | some p =>
    rcases p with ⟨m, rest⟩
    by_cases hc : hvCmp x m = Ordering.lt <;> simp [popGreatest, h, hc]

/-- Popping yields none exactly on the empty heap. -/
theorem popGreatest_eq_none {St : Type} {l : List (HeapRec St)}
    (h : popGreatest l = none) : l = [] := by
  cases l with
  | nil => rfl
  | cons x xs =>
    have := popGreatest_cons_isSome x xs
    rw [h] at this
    simp at this

/-- The comparison of hvCmp in terms of the due timestamps. -/
theorem hvCmp_eq_lt {St : Type} {a b : HeapRec St} :
    hvCmp a b = Ordering.lt ↔ b.due < a.due := by
  unfold hvCmp
  exact Nat.compare_eq_lt

/-- Popping removes exactly one occurrence: the heap is a permutation of the
popped element consed onto the remainder. -/
theorem popGreatest_perm {St : Type} : ∀ {l : List (HeapRec St)} {r : HeapRec St}
    {rest : List (HeapRec St)}, popGreatest l = some (r, rest) → l.Perm (r :: rest) := by
  intro l
  induction l with
  | nil => intro r rest h; simp [popGreatest] at h
  | cons x xs ih =>
    intro r rest h
    cases h' : popGreatest xs with
    | none =>
      simp only [popGreatest, h'] at h
      injection h with h
      injection h with h1 h2
      subst h1; subst h2
      exact List.Perm.refl _
    | some p =>
      rcases p with ⟨m, rest'⟩
      by_cases hc : hvCmp x m = Ordering.lt
      · simp only [popGreatest, h', if_pos hc] at h
        injection h with h
        injection h with h1 h2
        subst h1; subst h2
        exact ((ih h').cons x).trans (List.Perm.swap m x rest')
      · simp only [popGreatest, h', if_neg hc] at h
        injection h with h
        injection h with h1 h2
        subst h1; subst h2
        exact List.Perm.refl _

/-- The popped element has the least due timestamp of the heap. -/
theorem popGreatest_min {St : Type} : ∀ {l : List (HeapRec St)} {r : HeapRec St}
    {rest : List (HeapRec St)}, popGreatest l = some (r, rest) →
    ∀ x ∈ l, r.due ≤ x.due := by
  intro l
  induction l with
  | nil => intro r rest h; simp [popGreatest] at h
  | cons x xs ih =>
    intro r rest h y hy
    cases h' : popGreatest xs with
    | none =>
      simp only [popGreatest, h'] at h
      injection h with h
      injection h with h1 h2
      subst h1
      have hxs := popGreatest_eq_none h'
      subst hxs
      simp at hy
      subst hy
      exact Nat.le_refl _
    | some p =>
      rcases p with ⟨m, rest'⟩
      by_cases hc : hvCmp x m = Ordering.lt
      · simp only [popGreatest, h', if_pos hc] at h
        injection h with h
        injection h with h1 h2
        subst h1
        have hmx : m.due < x.due := hvCmp_eq_lt.mp hc
        rcases List.mem_cons.mp hy with hyx | hyxs
        · subst hyx; exact Nat.le_of_lt hmx
        · exact ih h' y hyxs
      · simp only [popGreatest, h', if_neg hc] at h
        injection h with h
        injection h with h1 h2
        subst h1
        have hxm : x.due ≤ m.due := by
          have : ¬ m.due < x.due := fun hlt => hc (hvCmp_eq_lt.mpr hlt)
          omega
        rcases List.mem_cons.mp hy with hyx | hyxs
        · subst hyx; exact Nat.le_refl _
        · exact Nat.le_trans hxm (ih h' y hyxs)

/-- Popping shortens the heap by one. -/
theorem popGreatest_length {St : Type} {l : List (HeapRec St)} {r : HeapRec St}
    {rest : List (HeapRec St)} (h : popGreatest l = some (r, rest)) :
    rest.length + 1 = l.length := by
  have := (popGreatest_perm h).length_eq
  simp at this
  omega

/-- With enough fuel, draining is a permutation of the heap. -/
theorem drainFuel_perm {St : Type} : ∀ (fuel : Nat) (l : List (HeapRec St)),
    l.length ≤ fuel → (drainFuel fuel l).Perm l := by
  intro fuel
  induction fuel with
  | zero =>
    intro l hl
    have : l = [] := List.length_eq_zero.mp (Nat.le_zero.mp hl)
    subst this
    exact List.Perm.refl _
  | succ n ih =>
    intro l hl
    cases h : popGreatest l with
    | none =>
      have := popGreatest_eq_none h
      subst this
      simp [drainFuel, h]
    | some p =>
      rcases p with ⟨r, rest⟩
      have hlen := popGreatest_length h
      have hrest : rest.length ≤ n := by omega
      rw [drainFuel, h]
      exact ((ih rest hrest).cons r).trans (popGreatest_perm h).symm

/-- With enough fuel, draining lists the due timestamps in non-decreasing
order. -/
theorem drainFuel_sorted {St : Type} : ∀ (fuel : Nat) (l : List (HeapRec St)),
    l.length ≤ fuel → ((drainFuel fuel l).map HeapRec.due).Sorted (· ≤ ·) := by
  intro fuel
  induction fuel with
  | zero => intro l _; simp [drainFuel]
  | succ n ih =>
    intro l hl
    cases h : popGreatest l with
    | none => simp [drainFuel, h]
    | some p =>
      rcases p with ⟨r, rest⟩
      have hlen := popGreatest_length h
      have hrest : rest.length ≤ n := by omega
      rw [drainFuel, h]
      simp only [List.map_cons]
      refine List.sorted_cons.mpr ⟨?_, ih rest hrest⟩
      intro b hb
      rcases List.mem_map.mp hb with ⟨y, hy, hyb⟩
      subst hyb
      have hyl : y ∈ l := (popGreatest_perm h).symm.subset
        (List.mem_cons.mpr (Or.inr ((drainFuel_perm n rest hrest).subset hy)))
      exact popGreatest_min h y hyl

/-- Case analysis of one locked pass: cleanup runs first and produces the
freed records; then either the policy is ready and exactly one record due at
now plus the returned duration is pushed, or the policy is not ready and the
wrapper is left as cleanup produced it. -/
theorem syncAttempt_cases {σ St : Type} (L : Logic σ St) (now : Nat) (st : St)
    (lw lw1 : LogicWrapper σ St) (freed : List (HeapRec St)) (pushed : Option (HeapRec St))
    (h : syncAttempt L now st lw = some (lw1, freed, pushed)) :
    ∃ lwc : LogicWrapper σ St, cleanup L now lw = some (lwc, freed) ∧
      ((∃ l2 dur, L.is_ready lwc.logic = true ∧ L.add_for lwc.logic st = some (l2, dur)
          ∧ pushed = some ⟨now + dur, st, lwc.nextId⟩
          ∧ lw1 = ⟨l2, ⟨now + dur, st, lwc.nextId⟩ :: lwc.delayed_frees, lwc.nextId + 1⟩)
        ∨ (L.is_ready lwc.logic = false ∧ pushed = none ∧ lw1 = lwc)) := by
  unfold syncAttempt at h
  cases hc : cleanup L now lw with
  | none => simp [hc] at h
  | some p =>
    rcases p with ⟨lwc, freed'⟩
    simp only [hc] at h
    by_cases hr : L.is_ready lwc.logic
    · simp only [if_pos hr] at h
      cases ha : L.add_for lwc.logic st with
      | none => simp [ha] at h
      | some q =>
        rcases q with ⟨l2, dur⟩
        simp only [ha, Option.some.injEq, Prod.mk.injEq] at h
        obtain ⟨h1, h2, h3⟩ := h
        subst h2
        exact ⟨lwc, rfl, Or.inl ⟨l2, dur, hr, ha, h3.symm, h1.symm⟩⟩
    · simp only [if_neg hr, Option.some.injEq, Prod.mk.injEq] at h
      obtain ⟨h1, h2, h3⟩ := h
      subst h2
      exact ⟨lwc, rfl, Or.inr ⟨by simpa using hr, h3.symm, h1.symm⟩⟩

/-- Full specification of the prune loop with sufficient fuel: the freed
records are processed in non-decreasing due order, each freed record was due,
every remaining record is still in the future, the heap splits as a
permutation into freed plus remaining, the policy state is the fold of free
over the freed states, and the ghost counter is unchanged. -/
theorem cleanupFuel_spec {σ St : Type} (L : Logic σ St) (now : Nat) :
    ∀ (fuel : Nat) (lw lw2 : LogicWrapper σ St) (freed : List (HeapRec St)),
    lw.delayed_frees.length ≤ fuel →
    cleanupFuel L now fuel lw = some (lw2, freed) →
      ((freed.map HeapRec.due).Sorted (· ≤ ·)
      ∧ (∀ r ∈ freed, r.due ≤ now)
      ∧ (∀ r ∈ lw2.delayed_frees, now < r.due)
      ∧ lw.delayed_frees.Perm (freed ++ lw2.delayed_frees)
      ∧ foldFrees L lw.logic (freed.map HeapRec.state) = some lw2.logic
      ∧ lw2.nextId = lw.nextId) := by
  intro fuel
  induction fuel with
  | zero =>
    intro lw lw2 freed hl h
    have hnil : lw.delayed_frees = [] := List.length_eq_zero.mp (Nat.le_zero.mp hl)
    simp only [cleanupFuel, Option.some.injEq, Prod.mk.injEq] at h
    obtain ⟨h1, h2⟩ := h
    subst h1
    subst h2
    simp [hnil, foldFrees]
  | succ n ih =>
    intro lw lw2 freed hl h
    cases hpop : popGreatest lw.delayed_frees with
    | none =>
      have hnil := popGreatest_eq_none hpop
      simp only [cleanupFuel, hpop, Option.some.injEq, Prod.mk.injEq] at h
      obtain ⟨h1, h2⟩ := h
      subst h1
      subst h2
      simp [hnil, foldFrees]
    | some p =>
      rcases p with ⟨r, rest⟩
      by_cases hdue : now < r.due
      · simp only [cleanupFuel, hpop, if_pos hdue, Option.some.injEq, Prod.mk.injEq] at h
        obtain ⟨h1, h2⟩ := h
        subst h1
        subst h2
        refine ⟨by simp, by simp, ?_, by simp, by simp [foldFrees], rfl⟩
        intro x hx
        exact Nat.lt_of_lt_of_le hdue (popGreatest_min hpop x hx)
      · simp only [cleanupFuel, hpop, if_neg hdue] at h
        cases hfree : L.free lw.logic r.state with
        | none => simp [hfree] at h
        | some l2 =>
          simp only [hfree] at h
          cases hrec : cleanupFuel L now n ⟨l2, rest, lw.nextId⟩ with
          | none => simp [hrec] at h
          | some q =>
            rcases q with ⟨lw3, freed'⟩
            simp only [hrec, Option.some.injEq, Prod.mk.injEq] at h
            obtain ⟨h1, h2⟩ := h
            subst h1
            subst h2
            have hlen := popGreatest_length hpop
            have hrl : rest.length ≤ n := by omega
            obtain ⟨IH1, IH2, IH3, IH4, IH5, IH6⟩ :=
              ih ⟨l2, rest, lw.nextId⟩ lw3 freed' hrl hrec
            have hmemrest : ∀ y ∈ freed', y ∈ lw.delayed_frees := by
              intro y hy
              exact (popGreatest_perm hpop).symm.subset
                (List.mem_cons.mpr (Or.inr (IH4.symm.subset (List.mem_append_left _ hy))))
            refine ⟨?_, ?_, IH3, ?_, ?_, IH6⟩
            · simp only [List.map_cons]
              refine List.sorted_cons.mpr ⟨?_, IH1⟩
              intro b hb
              rcases List.mem_map.mp hb with ⟨y, hy, hyb⟩
              subst hyb
              exact popGreatest_min hpop y (hmemrest y hy)
            · intro x hx
              rcases List.mem_cons.mp hx with hxr | hxf
              · subst hxr; omega
              · exact IH2 x hxf
            · exact (popGreatest_perm hpop).trans (IH4.cons r)
            · simp only [List.map_cons, foldFrees, hfree]
              exact IH5

/-- The specification of LogicWrapper.cleanup, from cleanupFuel_spec at the
exact fuel used by cleanup. -/
theorem cleanup_spec {σ St : Type} (L : Logic σ St) (now : Nat)
    (lw lw2 : LogicWrapper σ St) (freed : List (HeapRec St))
    (h : cleanup L now lw = some (lw2, freed)) :
      ((freed.map HeapRec.due).Sorted (· ≤ ·)
      ∧ (∀ r ∈ freed, r.due ≤ now)
      ∧ (∀ r ∈ lw2.delayed_frees, now < r.due)
      ∧ lw.delayed_frees.Perm (freed ++ lw2.delayed_frees)
      ∧ foldFrees L lw.logic (freed.map HeapRec.state) = some lw2.logic
      ∧ lw2.nextId = lw.nextId) :=
  cleanupFuel_spec L now _ lw lw2 freed (Nat.le_refl _) h

/-- A successful fold of QuotaPer.free subtracts exactly the sum of the
freed weights from the counter and leaves quota and timeout unchanged. -/
theorem foldFrees_quotaPer : ∀ (ws : List Nat) (q q2 : QuotaPer),
    foldFrees quotaPerLogic q ws = some q2 →
      q2.state + ws.sum = q.state ∧ q2.quota = q.quota ∧ q2.timeout = q.timeout := by
  intro ws
  induction ws with
  | nil =>
    intro q q2 h
    simp only [foldFrees, Option.some.injEq] at h
    subst h
    simp
  | cons w rest ih =>
    intro q q2 h
    simp only [foldFrees, quotaPerLogic] at h
    by_cases hw : w ≤ q.state
    · simp only [if_pos hw] at h
      obtain ⟨ih1, ih2, ih3⟩ := ih _ q2 h
      refine ⟨?_, by simpa using ih2, by simpa using ih3⟩
      simp only at ih1
      simp only [List.sum_cons]
      omega
    · simp [if_neg hw] at h

/-- The event weight sum distributes over list append. -/
theorem weightSumE_append (a b : List (Nat × HeapRec Nat)) :
    weightSumE (a ++ b) = weightSumE a + weightSumE b := by
  simp [weightSumE]

/-- Timestamping freed records does not change their weight sum. -/
theorem weightSumE_stamp (t : Nat) (rs : List (HeapRec Nat)) :
    weightSumE (rs.map (fun r => (t, r))) = weightSum rs := by
  simp [weightSumE, weightSum, List.map_map]
  rfl

/-- Along any successful run over QuotaPer, the counter plus the total weight
freed equals the initial counter plus the total weight admitted, and the
quota parameter never changes: the counter is exactly the outstanding
weight. -/
theorem runTrace_quotaPer_sum : ∀ (attempts : List (Nat × Nat))
    (lw lwf : LogicWrapper QuotaPer Nat) (fes aes : List (Nat × HeapRec Nat)),
    runTrace quotaPerLogic lw attempts = some (lwf, fes, aes) →
      lwf.logic.state + weightSumE fes = lw.logic.state + weightSumE aes
      ∧ lwf.logic.quota = lw.logic.quota := by
  intro attempts
  induction attempts with
  | nil =>
    intro lw lwf fes aes h
    simp only [runTrace, Option.some.injEq, Prod.mk.injEq] at h
    obtain ⟨h1, h2, h3⟩ := h
    subst h1; subst h2; subst h3
    simp [weightSumE]
  | cons a rest ih =>
    rcases a with ⟨t, st⟩
    intro lw lwf fes aes h
    simp only [runTrace] at h
    cases hsa : syncAttempt quotaPerLogic t st lw with
    | none => simp [hsa] at h
    | some p =>
      rcases p with ⟨lw1, freed, pushed⟩
      simp only [hsa] at h
      cases hrt : runTrace quotaPerLogic lw1 rest with
      | none => simp [hrt] at h
      | some q =>
        rcases q with ⟨lwf', fes', aes'⟩
        simp only [hrt, Option.some.injEq, Prod.mk.injEq] at h
        obtain ⟨h1, h2, h3⟩ := h
        subst h1; subst h2; subst h3
        obtain ⟨IH1, IH2⟩ := ih lw1 lwf' fes' aes' hrt
        obtain ⟨lwc, hcl, hcase⟩ := syncAttempt_cases _ t st lw lw1 freed pushed hsa
        obtain ⟨-, -, -, -, hfold, -⟩ := cleanup_spec _ t lw lwc freed hcl
        obtain ⟨hsum, hquota, -⟩ := foldFrees_quotaPer _ lw.logic lwc.logic hfold
        have hws : (freed.map HeapRec.state).sum = weightSum freed := rfl
        rw [hws] at hsum
        rcases hcase with ⟨l2, dur, hready, hadd, hpush, hlw1⟩ | ⟨hnready, hpush, hlw1⟩
        · simp only [quotaPerLogic] at hadd
          by_cases hov : lwc.logic.state + st < u64Bound
          · simp only [if_pos hov, Option.some.injEq, Prod.mk.injEq] at hadd
            obtain ⟨hl2, hdur⟩ := hadd
            subst hpush
            have hstate1 : lw1.logic.state = lwc.logic.state + st := by
              rw [hlw1, ← hl2]
            have hquota1 : lw1.logic.quota = lwc.logic.quota := by
              rw [hlw1, ← hl2]
            constructor
            · rw [weightSumE_append, weightSumE_stamp]
              have hone : weightSumE ((match some (⟨t + dur, st, lwc.nextId⟩ : HeapRec Nat) with
                  | some r => [(t, r)]
                  | none => []) ++ aes') = st + weightSumE aes' := by
                simp [weightSumE]
              rw [hone]
              rw [hstate1] at IH1
              omega
            · rw [IH2, hquota1, hquota]
          · simp [if_neg hov] at hadd
        · subst hpush
          have hstate1 : lw1.logic.state = lwc.logic.state := by rw [hlw1]
          have hquota1 : lw1.logic.quota = lwc.logic.quota := by rw [hlw1]
          constructor
          · rw [weightSumE_append, weightSumE_stamp]
            have hnone : weightSumE ((match (none : Option (HeapRec Nat)) with
                | some r => [(t, r)]
                | none => []) ++ aes') = weightSumE aes' := by
              simp
            rw [hnone]
            rw [hstate1] at IH1
            omega
          · rw [IH2, hquota1, hquota]

/-- Rotating the first two blocks of an append is a permutation. -/
theorem perm_rotate {α : Type} (A B C : List α) : (A ++ (B ++ C)).Perm (B ++ (A ++ C)) := by
  rw [← List.append_assoc, ← List.append_assoc]
  exact List.perm_append_comm.append_right C

/-- Conservation of pending-release records along any successful run: the
freed records plus the records still pending are a permutation of the
admitted records plus the records pending at the start (so each record is
freed at most once, and exactly once unless still pending); moreover no
record is ever freed before its due timestamp. -/
theorem runTrace_records {σ St : Type} (L : Logic σ St) :
    ∀ (attempts : List (Nat × St)) (lw lwf : LogicWrapper σ St)
      (fes aes : List (Nat × HeapRec St)),
    runTrace L lw attempts = some (lwf, fes, aes) →
      ((fes.map Prod.snd ++ lwf.delayed_frees).Perm
          (aes.map Prod.snd ++ lw.delayed_frees)
      ∧ ∀ p ∈ fes, (Prod.snd p).due ≤ Prod.fst p) := by
  intro attempts
  induction attempts with
  | nil =>
    intro lw lwf fes aes h
    simp only [runTrace, Option.some.injEq, Prod.mk.injEq] at h
    obtain ⟨h1, h2, h3⟩ := h
    subst h1; subst h2; subst h3
    simp
  | cons a rest ih =>
    rcases a with ⟨t, st⟩
    intro lw lwf fes aes h
    simp only [runTrace] at h
    cases hsa : syncAttempt L t st lw with
    | none => simp [hsa] at h
    | some p =>
      rcases p with ⟨lw1, freed, pushed⟩
      simp only [hsa] at h
      cases hrt : runTrace L lw1 rest with
      | none => simp [hrt] at h
      | some q =>
        rcases q with ⟨lwf', fes', aes'⟩
        simp only [hrt, Option.some.injEq, Prod.mk.injEq] at h
        obtain ⟨h1, h2, h3⟩ := h
        subst h1; subst h2; subst h3
        obtain ⟨IH1, IH2⟩ := ih lw1 lwf' fes' aes' hrt
        obtain ⟨lwc, hcl, hcase⟩ := syncAttempt_cases _ t st lw lw1 freed pushed hsa
        obtain ⟨-, hdue, -, hperm, -, -⟩ := cleanup_spec _ t lw lwc freed hcl
        have hmapfreed : (freed.map (fun r => (t, r))).map Prod.snd = freed := by simp
        constructor
        · rcases hcase with ⟨l2, dur, hready, hadd, hpush, hlw1⟩ | ⟨hnready, hpush, hlw1⟩
          · subst hpush
            have hheap1 : lw1.delayed_frees
                = (⟨t + dur, st, lwc.nextId⟩ : HeapRec St) :: lwc.delayed_frees := by
              rw [hlw1]
            rw [hheap1] at IH1
            simp only [List.map_append, List.map_cons, List.map_nil, List.nil_append,
              List.cons_append, hmapfreed, List.append_assoc]
            have s1 := IH1.append_left freed
            have s3 := (@List.perm_middle _ (⟨t + dur, st, lwc.nextId⟩ : HeapRec St)
              (aes'.map Prod.snd) lwc.delayed_frees).append_left freed
            have s4 := @List.perm_middle _ (⟨t + dur, st, lwc.nextId⟩ : HeapRec St)
              freed (aes'.map Prod.snd ++ lwc.delayed_frees)
            have s5 := (perm_rotate freed (aes'.map Prod.snd) lwc.delayed_frees).cons
              (⟨t + dur, st, lwc.nextId⟩ : HeapRec St)
            have s7 := ((hperm.append_left (aes'.map Prod.snd)).cons
              (⟨t + dur, st, lwc.nextId⟩ : HeapRec St)).symm
            exact ((((s1.trans s3).trans s4).trans s5).trans s7)
          · subst hpush
            have hheap1 : lw1.delayed_frees = lwc.delayed_frees := by rw [hlw1]
            rw [hheap1] at IH1
            simp only [List.map_append, List.map_cons, List.map_nil, List.nil_append,
              hmapfreed, List.append_assoc]
            have s1 := IH1.append_left freed
            have s2 := perm_rotate freed (aes'.map Prod.snd) lwc.delayed_frees
            have s3 := (hperm.append_left (aes'.map Prod.snd)).symm
            exact s1.trans (s2.trans s3)
        · intro p hp
          rcases List.mem_append.mp hp with hpf | hpf
          · rcases List.mem_map.mp hpf with ⟨y, hy, hyp⟩
            subst hyp
            exact hdue y hy
          · exact IH2 p hpf


/-- Projection equation: readiness of the Timeout policy. -/
theorem timeout_ready_eq (t : Timeout) : timeoutLogic.is_ready t = !t.is_timed_out := rfl

/-- Projection equation: add_for of the Timeout policy. -/
theorem timeout_add_eq (t : Timeout) (u : Unit) :
    timeoutLogic.add_for t u = some (⟨true, t.timeout⟩, t.timeout) := rfl

/-- Projection equation: free of the Timeout policy. -/
theorem timeout_free_eq (t : Timeout) (u : Unit) :
    timeoutLogic.free t u = some ⟨false, t.timeout⟩ := rfl

/-- Projection equation: readiness of the QuotaPer policy. -/
theorem quotaPer_ready_eq (q : QuotaPer) :
    quotaPerLogic.is_ready q = decide (q.state < q.quota) := rfl

/-- Projection equation: add_for of the QuotaPer policy. -/
theorem quotaPer_add_eq (q : QuotaPer) (w : Nat) :
    quotaPerLogic.add_for q w =
      (if q.state + w < u64Bound then some (⟨q.quota, q.state + w, q.timeout⟩, q.timeout)
       else none) := rfl

/-- Projection equation: free of the QuotaPer policy. -/
theorem quotaPer_free_eq (q : QuotaPer) (w : Nat) :
    quotaPerLogic.free q w =
      (if w ≤ q.state then some ⟨q.quota, q.state - w, q.timeout⟩ else none) := rfl

/-- Wrapper states reachable from a start state by locked passes of the
gate (the sync critical sections), in any order and at any times. -/
inductive Reachable {σ St : Type} (L : Logic σ St) (lw0 : LogicWrapper σ St) :
    LogicWrapper σ St → Prop
  | refl : Reachable L lw0 lw0
  | step {lw lw1 : LogicWrapper σ St} {t : Nat} {st : St} {freed : List (HeapRec St)}
      {pushed : Option (HeapRec St)} :
      Reachable L lw0 lw →
      syncAttempt L t st lw = some (lw1, freed, pushed) →
      Reachable L lw0 lw1

/-- The Timeout policy methods never fault, so the prune loop over Timeout
never faults. -/
theorem cleanupFuel_timeout_isSome (now : Nat) : ∀ (fuel : Nat)
    (lw : LogicWrapper Timeout Unit),
    (cleanupFuel timeoutLogic now fuel lw).isSome = true := by
  intro fuel
  induction fuel with
  | zero => intro lw; simp [cleanupFuel]
  | succ n ih =>
    intro lw
    cases hpop : popGreatest lw.delayed_frees with
    | none => simp [cleanupFuel, hpop]
    | some p =>
      rcases p with ⟨r, rest⟩
      by_cases hdue : now < r.due
      · simp [cleanupFuel, hpop, if_pos hdue]
      · have hrec := ih ⟨⟨false, lw.logic.timeout⟩, rest, lw.nextId⟩
        cases hrc : cleanupFuel timeoutLogic now n ⟨⟨false, lw.logic.timeout⟩, rest, lw.nextId⟩ with
        | none => rw [hrc] at hrec; simp at hrec
        | some q =>
          rcases q with ⟨lw2, freed⟩
          simp [cleanupFuel, hpop, if_neg hdue, timeout_free_eq, hrc]

/-- A locked pass over the Timeout policy never faults. -/
theorem syncAttempt_timeout_isSome (now : Nat) (lw : LogicWrapper Timeout Unit) :
    (syncAttempt timeoutLogic now () lw).isSome = true := by
  have hcl := cleanupFuel_timeout_isSome now lw.delayed_frees.length lw
  cases hc : cleanup timeoutLogic now lw with
  | none => rw [cleanup] at hc; rw [hc] at hcl; simp at hcl
  | some p =>
    rcases p with ⟨lwc, freed⟩
    by_cases hr : timeoutLogic.is_ready lwc.logic
    · simp [syncAttempt, hc, if_pos hr, timeout_add_eq]
    · simp [syncAttempt, hc, if_neg hr]

/-- The single-caller retry loop over the Timeout policy never faults. -/
theorem syncLoop_timeout_isSome : ∀ (ts : List Nat) (lw : LogicWrapper Timeout Unit),
    (syncLoop timeoutLogic () ts lw).isSome = true := by
  intro ts
  induction ts with
  | nil => intro lw; simp [syncLoop]
  | cons t rest ih =>
    intro lw
    have hsa := syncAttempt_timeout_isSome t lw
    cases h : syncAttempt timeoutLogic t () lw with
    | none => rw [h] at hsa; simp at hsa
    | some p =>
      rcases p with ⟨lw1, freed, pushed⟩
      cases pushed with
      | none => simpa [syncLoop, h] using ih lw1
      | some r => simp [syncLoop, h]

/-- Pruning a Timeout wrapper holding one pending record: nothing happens
while the record is in the future; once due, the record is popped and the
cooldown flag is cleared. -/
theorem cleanup_timeout_single (now : Nat) (flag : Bool) (T : Nat) (r : HeapRec Unit)
    (nid : Nat) :
    cleanup timeoutLogic now ⟨⟨flag, T⟩, [r], nid⟩ =
      (if now < r.due then some (⟨⟨flag, T⟩, [r], nid⟩, [])
       else some (⟨⟨false, T⟩, [], nid⟩, [r])) := by
  by_cases hdue : now < r.due <;>
    simp [cleanup, cleanupFuel, popGreatest, hdue, timeout_free_eq]

/-- Pruning an empty wrapper does nothing. -/
theorem cleanup_empty {σ St : Type} (L : Logic σ St) (now : Nat)
    (lg : σ) (nid : Nat) :
    cleanup L now ⟨lg, [], nid⟩ = some (⟨lg, [], nid⟩, []) := by
  simp [cleanup, cleanupFuel]

/-- Pruning preserves the Timeout single-slot invariant: the number of
pending records equals one exactly while the cooldown flag is set. -/
theorem cleanup_timeout_inv (now : Nat) (lw lwc : LogicWrapper Timeout Unit)
    (freed : List (HeapRec Unit))
    (hinv : lw.delayed_frees.length = (if lw.logic.is_timed_out then 1 else 0))
    (h : cleanup timeoutLogic now lw = some (lwc, freed)) :
    lwc.delayed_frees.length = (if lwc.logic.is_timed_out then 1 else 0) := by
  rcases hlw : lw with ⟨⟨flag, T⟩, heap, nid⟩
  rw [hlw] at hinv h
  rcases hl : heap with _ | ⟨r, rest2⟩
  · rw [hl] at h
    rw [cleanup_empty] at h
    simp only [Option.some.injEq, Prod.mk.injEq] at h
    obtain ⟨h1, h2⟩ := h
    rw [← h1]
    rw [hl] at hinv
    exact hinv
  · rw [hl] at hinv
    simp only [List.length_cons] at hinv
    cases flag with
    | false => simp at hinv
    | true =>
      simp only [if_pos] at hinv
      have hrest2 : rest2 = [] := by
        have : rest2.length = 0 := by omega
        exact List.length_eq_zero.mp this
      subst hrest2
      rw [hl] at h
      rw [cleanup_timeout_single] at h
      by_cases hdue : now < r.due
      · rw [if_pos hdue] at h
        simp only [Option.some.injEq, Prod.mk.injEq] at h
        obtain ⟨h1, h2⟩ := h
        rw [← h1]
        simp
      · rw [if_neg hdue] at h
        simp only [Option.some.injEq, Prod.mk.injEq] at h
        obtain ⟨h1, h2⟩ := h
        rw [← h1]
        simp

/-- Every reachable state of a gate over Timeout has at most one pending
record: exactly one while the cooldown flag is set, none otherwise. -/
theorem reachable_timeout_inv (T : Nat) (lw : LogicWrapper Timeout Unit)
    (h : Reachable timeoutLogic (LogicWrapper.new (Timeout.new T)) lw) :
    lw.delayed_frees.length = (if lw.logic.is_timed_out then 1 else 0) := by
  induction h with
  | refl => simp [LogicWrapper.new, Timeout.new]
  | step hre hsa ih =>
    obtain ⟨lwc, hcl, hcase⟩ := syncAttempt_cases _ _ _ _ _ _ _ hsa
    have hinvc := cleanup_timeout_inv _ _ lwc _ ih hcl
    rcases hcase with ⟨l2, dur, hready, hadd, hpush, hlw1⟩ | ⟨hnready, hpush, hlw1⟩
    · rw [timeout_ready_eq] at hready
      have hflag : lwc.logic.is_timed_out = false := by
        cases hff : lwc.logic.is_timed_out
        · rfl
        · rw [hff] at hready; simp at hready
      rw [hflag] at hinvc
      simp only [Bool.false_eq_true, if_false] at hinvc
      have hheapc : lwc.delayed_frees = [] := List.length_eq_zero.mp hinvc
      rw [timeout_add_eq] at hadd
      simp only [Option.some.injEq, Prod.mk.injEq] at hadd
      obtain ⟨hl2, hdur⟩ := hadd
      rw [hlw1, ← hl2, hheapc]
      simp
    · rw [hlw1]
      exact hinvc

/-- Exact behaviour of the retry loop of a caller blocked behind one pending
Timeout admission due at d: the caller is admitted exactly at the first
attempt time t with d ≤ t, and stays blocked (retrying, no error) while no
such attempt time exists. -/
theorem syncLoop_timeout_find (T d nid : Nat) : ∀ (ts : List Nat),
    (syncLoop timeoutLogic () ts ⟨⟨true, T⟩, [⟨d, (), nid⟩], nid + 1⟩).map Prod.fst
      = some (ts.find? (fun t => decide (d ≤ t))) := by
  intro ts
  induction ts with
  | nil => simp [syncLoop, List.find?]
  | cons t rest ih =>
    by_cases hdt : d ≤ t
    · have hsa : syncAttempt timeoutLogic t () ⟨⟨true, T⟩, [⟨d, (), nid⟩], nid + 1⟩
          = some (⟨⟨true, T⟩, [⟨t + T, (), nid + 1⟩], nid + 2⟩, [⟨d, (), nid⟩],
              some ⟨t + T, (), nid + 1⟩) := by
        have hnot : ¬ t < (⟨d, (), nid⟩ : HeapRec Unit).due := by
          simpa using Nat.not_lt.mpr hdt
        simp [syncAttempt, cleanup_timeout_single, if_neg hnot, timeout_ready_eq,
          timeout_add_eq]
      rw [List.find?_cons_of_pos _ (by simpa using hdt)]
      simp [syncLoop, hsa]
    · have hsa : syncAttempt timeoutLogic t () ⟨⟨true, T⟩, [⟨d, (), nid⟩], nid + 1⟩
          = some (⟨⟨true, T⟩, [⟨d, (), nid⟩], nid + 1⟩, [], none) := by
        have hlt : t < (⟨d, (), nid⟩ : HeapRec Unit).due := by
          simpa using Nat.lt_of_not_le hdt
        simp [syncAttempt, cleanup_timeout_single, if_pos hlt, timeout_ready_eq]
      rw [List.find?_cons_of_neg _ (by simpa using hdt)]
      rw [← ih]
      simp [syncLoop, hsa]

/-- C1: the claim states that on the not-ready path the lock is released
before the caller suspends for the poll interval and that the lock is never
held during that sleep. In the source (src/src/lib.rs lines 45-58) the
mutex guard named internal lives until the continue statement, which comes
after the sleep await, so the code moves from the failed readiness check to
the sleeping point with the lock still held: the claim is false of the code
on every not-ready attempt. -/
theorem C1_lock_held_during_poll_sleep :
    syncStep false SyncPoint.readyCheck = SyncPoint.sleeping
    ∧ lockHeld SyncPoint.sleeping = true
    ∧ syncStep true SyncPoint.sleeping = SyncPoint.awaitLock :=
  ⟨rfl, rfl, rfl⟩

/-- C2: for a gate over QuotaPer(Q, T), at the instant an admission is
granted (the readiness check succeeds, after the prune of the same critical
section and just before add_for), the total weight passed to add_for minus
the total weight passed to free is strictly below Q. -/
theorem C2_quotaPer_capacity_bound (Q T : Nat) (attempts : List (Nat × Nat))
    (t : Nat) (lwf lw1 : LogicWrapper QuotaPer Nat)
    (fes aes : List (Nat × HeapRec Nat)) (freed : List (HeapRec Nat))
    (hrun : runTrace quotaPerLogic (LogicWrapper.new (QuotaPer.new Q T)) attempts
      = some (lwf, fes, aes))
    (hclean : cleanup quotaPerLogic t lwf = some (lw1, freed))
    (hready : quotaPerLogic.is_ready lw1.logic = true) :
    weightSumE fes + weightSum freed ≤ weightSumE aes
    ∧ weightSumE aes - (weightSumE fes + weightSum freed) < Q := by
  obtain ⟨hsum, hquota⟩ := runTrace_quotaPer_sum attempts _ lwf fes aes hrun
  obtain ⟨-, -, -, -, hfold, -⟩ := cleanup_spec _ t lwf lw1 freed hclean
  obtain ⟨hsum2, hquota2, -⟩ := foldFrees_quotaPer _ lwf.logic lw1.logic hfold
  have h0 : (LogicWrapper.new (QuotaPer.new Q T) : LogicWrapper QuotaPer Nat).logic.state
      = 0 := rfl
  have hQ : (LogicWrapper.new (QuotaPer.new Q T) : LogicWrapper QuotaPer Nat).logic.quota
      = Q := rfl
  rw [h0] at hsum
  rw [hQ] at hquota
  have hready2 : lw1.logic.state < lw1.logic.quota := by
    rw [quotaPer_ready_eq] at hready
    exact of_decide_eq_true hready
  have hws : (freed.map HeapRec.state).sum = weightSum freed := rfl
  rw [hws] at hsum2
  have hq12 : lw1.logic.quota = Q := hquota2.trans hquota
  omega

/-- C2 witness: a run of one admission of weight 1 through QuotaPer(2, 5);
at a second admission instant at time 0 the outstanding weight 1 is below
the quota 2. -/
theorem C2_quotaPer_capacity_bound_witness :
    (runTrace quotaPerLogic (LogicWrapper.new (QuotaPer.new 2 5)) [(0, 1)]
      = some (⟨⟨2, 1, 5⟩, [⟨5, 1, 0⟩], 1⟩, [], [(0, ⟨5, 1, 0⟩)]))
    ∧ (cleanup quotaPerLogic 0 ⟨⟨2, 1, 5⟩, [⟨5, 1, 0⟩], 1⟩
      = some (⟨⟨2, 1, 5⟩, [⟨5, 1, 0⟩], 1⟩, []))
    ∧ (quotaPerLogic.is_ready (⟨2, 1, 5⟩ : QuotaPer) = true)
    ∧ (weightSumE [] + weightSum [] ≤ weightSumE [(0, ⟨5, 1, 0⟩)]
      ∧ weightSumE [(0, ⟨5, 1, 0⟩)] - (weightSumE [] + weightSum []) < 2) :=
  ⟨rfl, rfl, rfl,
    C2_quotaPer_capacity_bound 2 5 [(0, 1)] 0 ⟨⟨2, 1, 5⟩, [⟨5, 1, 0⟩], 1⟩
      ⟨⟨2, 1, 5⟩, [⟨5, 1, 0⟩], 1⟩ [] [(0, ⟨5, 1, 0⟩)] [] rfl rfl rfl⟩

/-- C3: the prune operation processes pending records earliest-due first
(the freed list is non-decreasing in due time), calls Policy.free on exactly
the records whose due timestamp is at most the current time, stops at the
first future record (every remaining record is strictly in the future),
never frees a record before its due timestamp, and never skips a due
record. -/
theorem C3_prune_earliest_first {σ St : Type} (L : Logic σ St) (now : Nat)
    (lw lw2 : LogicWrapper σ St) (freed : List (HeapRec St))
    (h : cleanup L now lw = some (lw2, freed)) :
    ((freed.map HeapRec.due).Sorted (· ≤ ·)
    ∧ foldFrees L lw.logic (freed.map HeapRec.state) = some lw2.logic
    ∧ (∀ r ∈ freed, r.due ≤ now)
    ∧ (∀ r ∈ lw2.delayed_frees, now < r.due)
    ∧ lw.delayed_frees.Perm (freed ++ lw2.delayed_frees)) := by
  obtain ⟨h1, h2, h3, h4, h5, -⟩ := cleanup_spec L now lw lw2 freed h
  exact ⟨h1, h5, h2, h3, h4⟩

/-- C3 witness: pruning a heap with records due at 3 and at 1, at time 2:
only the record due at 1 is freed (its weight 2 is subtracted), the record
due at 3 remains. -/
theorem C3_prune_earliest_first_witness :
    (cleanup quotaPerLogic 2 ⟨⟨5, 3, 7⟩, [⟨3, 1, 0⟩, ⟨1, 2, 1⟩], 2⟩
      = some (⟨⟨5, 1, 7⟩, [⟨3, 1, 0⟩], 2⟩, [⟨1, 2, 1⟩]))
    ∧ ((([⟨1, 2, 1⟩] : List (HeapRec Nat)).map HeapRec.due).Sorted (· ≤ ·)
    ∧ foldFrees quotaPerLogic (⟨5, 3, 7⟩ : QuotaPer)
        (([⟨1, 2, 1⟩] : List (HeapRec Nat)).map HeapRec.state) = some ⟨5, 1, 7⟩
    ∧ (∀ r ∈ ([⟨1, 2, 1⟩] : List (HeapRec Nat)), r.due ≤ 2)
    ∧ (∀ r ∈ ([⟨3, 1, 0⟩] : List (HeapRec Nat)), 2 < r.due)
    ∧ ([⟨3, 1, 0⟩, ⟨1, 2, 1⟩] : List (HeapRec Nat)).Perm
        ([⟨1, 2, 1⟩] ++ [⟨3, 1, 0⟩])) :=
  ⟨rfl, C3_prune_earliest_first quotaPerLogic 2 ⟨⟨5, 3, 7⟩, [⟨3, 1, 0⟩, ⟨1, 2, 1⟩], 2⟩
    ⟨⟨5, 1, 7⟩, [⟨3, 1, 0⟩], 2⟩ [⟨1, 2, 1⟩] rfl⟩

/-- C4: every successful admission pushes exactly one pending-release record
carrying the caller state and due at now plus the duration returned by
add_for; and along any run from an empty gate the freed records plus the
still-pending records are a permutation of the admitted records (each
record is freed at most once, exactly once unless still pending), with no
record freed before its due timestamp. -/
theorem C4_one_record_per_admission :
    (∀ (σ St : Type) (L : Logic σ St) (now : Nat) (st : St)
        (lw lw1 : LogicWrapper σ St) (freed : List (HeapRec St)) (r : HeapRec St),
      syncAttempt L now st lw = some (lw1, freed, some r) →
      ∃ (lwc : LogicWrapper σ St) (l2 : σ) (dur : Nat),
        cleanup L now lw = some (lwc, freed)
        ∧ L.add_for lwc.logic st = some (l2, dur)
        ∧ r = ⟨now + dur, st, lwc.nextId⟩
        ∧ lw1.delayed_frees = r :: lwc.delayed_frees)
  ∧ (∀ (σ St : Type) (L : Logic σ St) (l0 : σ) (attempts : List (Nat × St))
        (lwf : LogicWrapper σ St) (fes aes : List (Nat × HeapRec St)),
      runTrace L (LogicWrapper.new l0) attempts = some (lwf, fes, aes) →
      (fes.map Prod.snd ++ lwf.delayed_frees).Perm (aes.map Prod.snd)
      ∧ ∀ p ∈ fes, (Prod.snd p).due ≤ Prod.fst p) := by
  constructor
  · intro σ St L now st lw lw1 freed r h
    obtain ⟨lwc, hcl, hcase⟩ := syncAttempt_cases L now st lw lw1 freed (some r) h
    rcases hcase with ⟨l2, dur, hready, hadd, hpush, hlw1⟩ | ⟨-, hpush, -⟩
    · injection hpush with hp2
      subst hp2
      exact ⟨lwc, l2, dur, hcl, hadd, rfl, by rw [hlw1]⟩
    · simp at hpush
  · intro σ St L l0 attempts lwf fes aes h
    obtain ⟨h1, h2⟩ := runTrace_records L attempts (LogicWrapper.new l0) lwf fes aes h
    refine ⟨?_, h2⟩
    simpa [LogicWrapper.new] using h1

/-- C4 witness: one admission of weight 1 through QuotaPer(2, 5) at time 0
pushes exactly the record due at 5, and the one-attempt run satisfies the
conservation property. -/
theorem C4_one_record_per_admission_witness :
    (∃ (lwc : LogicWrapper QuotaPer Nat) (l2 : QuotaPer) (dur : Nat),
      cleanup quotaPerLogic 0 (LogicWrapper.new (QuotaPer.new 2 5)) = some (lwc, [])
      ∧ quotaPerLogic.add_for lwc.logic 1 = some (l2, dur)
      ∧ (⟨5, 1, 0⟩ : HeapRec Nat) = ⟨0 + dur, 1, lwc.nextId⟩
      ∧ (⟨⟨2, 1, 5⟩, [⟨5, 1, 0⟩], 1⟩ : LogicWrapper QuotaPer Nat).delayed_frees
          = ⟨5, 1, 0⟩ :: lwc.delayed_frees)
    ∧ ((([] : List (Nat × HeapRec Nat)).map Prod.snd
          ++ (⟨⟨2, 1, 5⟩, [⟨5, 1, 0⟩], 1⟩ : LogicWrapper QuotaPer Nat).delayed_frees).Perm
        (([(0, ⟨5, 1, 0⟩)] : List (Nat × HeapRec Nat)).map Prod.snd)
      ∧ ∀ p ∈ ([] : List (Nat × HeapRec Nat)), (Prod.snd p).due ≤ Prod.fst p) :=
  ⟨C4_one_record_per_admission.1 QuotaPer Nat quotaPerLogic 0 1
      (LogicWrapper.new (QuotaPer.new 2 5)) ⟨⟨2, 1, 5⟩, [⟨5, 1, 0⟩], 1⟩ [] ⟨5, 1, 0⟩ rfl,
    C4_one_record_per_admission.2 QuotaPer Nat quotaPerLogic (QuotaPer.new 2 5) [(0, 1)]
      ⟨⟨2, 1, 5⟩, [⟨5, 1, 0⟩], 1⟩ [] [(0, ⟨5, 1, 0⟩)] rfl⟩

/-- C5: for the Timeout policy, is_ready is true exactly while the cooldown
flag is clear, add_for sets the flag and returns the fixed timeout, free
clears the flag; consequently in every reachable state of a gate over
Timeout the number of outstanding admissions (pending records) is one while
the flag is set and zero otherwise, hence at most one at any instant. -/
theorem C5_timeout_policy :
    (∀ t : Timeout, timeoutLogic.is_ready t = !t.is_timed_out)
  ∧ (∀ (t : Timeout) (u : Unit),
      timeoutLogic.add_for t u = some (⟨true, t.timeout⟩, t.timeout))
  ∧ (∀ (t : Timeout) (u : Unit), timeoutLogic.free t u = some ⟨false, t.timeout⟩)
  ∧ (∀ (T : Nat) (lw : LogicWrapper Timeout Unit),
      Reachable timeoutLogic (LogicWrapper.new (Timeout.new T)) lw →
      lw.delayed_frees.length = (if lw.logic.is_timed_out then 1 else 0)
      ∧ lw.delayed_frees.length ≤ 1) := by
  refine ⟨timeout_ready_eq, timeout_add_eq, timeout_free_eq, ?_⟩
  intro T lw h
  have hinv := reachable_timeout_inv T lw h
  refine ⟨hinv, ?_⟩
  rw [hinv]
  cases lw.logic.is_timed_out <;> simp

/-- C5 witness: the state reached by one admission at time 0 through
Timeout(5) has the flag set and exactly one pending record. -/
theorem C5_timeout_policy_witness :
    (⟨⟨true, 5⟩, [⟨5, (), 0⟩], 1⟩ : LogicWrapper Timeout Unit).delayed_frees.length
      = (if (⟨⟨true, 5⟩, [⟨5, (), 0⟩], 1⟩
          : LogicWrapper Timeout Unit).logic.is_timed_out then 1 else 0)
    ∧ (⟨⟨true, 5⟩, [⟨5, (), 0⟩], 1⟩
        : LogicWrapper Timeout Unit).delayed_frees.length ≤ 1 :=
  C5_timeout_policy.2.2.2 5 ⟨⟨true, 5⟩, [⟨5, (), 0⟩], 1⟩
    (Reachable.step Reachable.refl
      (rfl : syncAttempt timeoutLogic 0 () (LogicWrapper.new (Timeout.new 5))
        = some (⟨⟨true, 5⟩, [⟨5, (), 0⟩], 1⟩, [], some ⟨5, (), 0⟩)))

/-- C6: for QuotaPer(Q, T) the counter starts at 0, is_ready is true exactly
when the counter is strictly below the quota, add_for adds the weight to the
counter (in u64 arithmetic, here below the overflow bound) and returns the
fixed duration, and free subtracts the weight from the counter (here at most
the counter, so no underflow). -/
theorem C6_quotaPer_policy (Q T : Nat) (q : QuotaPer) (w : Nat) :
    (QuotaPer.new Q T).state = 0
  ∧ (quotaPerLogic.is_ready q = true ↔ q.state < q.quota)
  ∧ (q.state + w < u64Bound →
      quotaPerLogic.add_for q w = some (⟨q.quota, q.state + w, q.timeout⟩, q.timeout))
  ∧ (w ≤ q.state →
      quotaPerLogic.free q w = some ⟨q.quota, q.state - w, q.timeout⟩) := by
  refine ⟨rfl, ?_, ?_, ?_⟩
  · rw [quotaPer_ready_eq]
    exact decide_eq_true_iff
  · intro h
    rw [quotaPer_add_eq, if_pos h]
  · intro h
    rw [quotaPer_free_eq, if_pos h]

/-- C6 witness: QuotaPer with quota 3, counter 1, window 7: ready, adding
weight 1 gives counter 2 and returns 7, freeing weight 1 gives counter 0. -/
theorem C6_quotaPer_policy_witness :
    (QuotaPer.new 3 7).state = 0
    ∧ (quotaPerLogic.add_for ⟨3, 1, 7⟩ 1 = some (⟨3, 2, 7⟩, 7))
    ∧ (quotaPerLogic.free ⟨3, 1, 7⟩ 1 = some ⟨3, 0, 7⟩) :=
  ⟨(C6_quotaPer_policy 3 7 ⟨3, 1, 7⟩ 1).1,
    (C6_quotaPer_policy 3 7 ⟨3, 1, 7⟩ 1).2.2.1 (by decide),
    (C6_quotaPer_policy 3 7 ⟨3, 1, 7⟩ 1).2.2.2 (by decide)⟩

/-- C7: the overridden max and min of HeapValue agree with its reversed
comparison (the greater element is the one with the smaller due timestamp),
and repeatedly popping the greatest element under that comparison from any
heap contents yields all the records, in non-decreasing order of due
timestamp. -/
theorem C7_heap_ordering :
    (∀ (St : Type) (a b : HeapRec St),
        hvMax a b = (if hvCmp a b = Ordering.gt then a else b)
      ∧ hvMin a b = (if hvCmp a b = Ordering.gt then b else a))
  ∧ (∀ (St : Type) (l : List (HeapRec St)),
      ((drain l).map HeapRec.due).Sorted (· ≤ ·) ∧ (drain l).Perm l) := by
  constructor
  · intro St a b
    by_cases hab : a.due < b.due
    · have h1 : hvCmp a b = Ordering.gt := by
        unfold hvCmp
        exact Nat.compare_eq_gt.mpr hab
      constructor
      · rw [hvMax, if_pos hab, if_pos h1]
      · rw [hvMin, if_pos hab, if_pos h1]
    · have h1 : ¬ hvCmp a b = Ordering.gt := by
        unfold hvCmp
        rw [Nat.compare_eq_gt]
        exact hab
      constructor
      · rw [hvMax, if_neg hab, if_neg h1]
      · rw [hvMin, if_neg hab, if_neg h1]
  · intro St l
    exact ⟨drainFuel_sorted l.length l (Nat.le_refl _),
      drainFuel_perm l.length l (Nat.le_refl _)⟩

/-- C8: the admission loop of the gate has no error outcome (over the
infallible Timeout policy it always yields a result), and a caller blocked
behind a pending Timeout admission due at d is admitted exactly at its first
retry at a time t with d ≤ t: it keeps retrying, never errors, and returns
as soon as the policy reports ready. -/
theorem C8_sync_infallible_and_admits :
    (∀ (ts : List Nat) (lw : LogicWrapper Timeout Unit),
        (syncLoop timeoutLogic () ts lw).isSome = true)
  ∧ (∀ (T d nid : Nat) (ts : List Nat),
        (syncLoop timeoutLogic () ts ⟨⟨true, T⟩, [⟨d, (), nid⟩], nid + 1⟩).map Prod.fst
          = some (ts.find? (fun t => decide (d ≤ t)))) :=
  ⟨syncLoop_timeout_isSome, syncLoop_timeout_find⟩

/-- C9: QuotaPer readiness inspects only the counter and the quota and takes
no weight argument at all, so an admission of any weight w is granted
whenever counter < Q; starting from the largest ready counter Q - 1, the
counter immediately after admission is Q - 1 + w = Q + (w - 1), which
exceeds Q whenever w is at least 2. -/
theorem C9_readiness_ignores_weight :
    (∀ q : QuotaPer, quotaPerLogic.is_ready q = decide (q.state < q.quota))
  ∧ (∀ (q : QuotaPer) (w : Nat), q.state < q.quota → q.state + w < u64Bound →
      quotaPerLogic.add_for q w = some (⟨q.quota, q.state + w, q.timeout⟩, q.timeout))
  ∧ (∀ (Q T w : Nat), 0 < Q → Q + w ≤ u64Bound → 1 ≤ w →
      quotaPerLogic.add_for ⟨Q, Q - 1, T⟩ w = some (⟨Q, Q - 1 + w, T⟩, T)
      ∧ Q - 1 + w = Q + (w - 1)
      ∧ (2 ≤ w → Q < Q - 1 + w)) := by
  refine ⟨quotaPer_ready_eq, ?_, ?_⟩
  · intro q w hready hov
    rw [quotaPer_add_eq, if_pos hov]
  · intro Q T w hQ hov hw
    refine ⟨?_, by omega, by omega⟩
    rw [quotaPer_add_eq]
    simp only
    rw [if_pos (by omega)]

/-- C9 witness: with quota 1 and counter 0 (ready), an admission of weight 3
is granted and leaves the counter at 3 = 1 + 2, exceeding the quota by
w - 1 = 2. -/
theorem C9_readiness_ignores_weight_witness :
    quotaPerLogic.add_for ⟨1, 1 - 1, 5⟩ 3 = some (⟨1, 1 - 1 + 3, 5⟩, 5)
    ∧ 1 - 1 + 3 = 1 + (3 - 1)
    ∧ (2 ≤ 3 → 1 < 1 - 1 + 3) :=
  C9_readiness_ignores_weight.2.2 1 5 3 (by decide) (by decide) (by decide)

/-- C10: QuotaPer performs unguarded u64 arithmetic: free with a weight
larger than the counter is an arithmetic fault (an underflow, modelled as
none), not a defensive clamp; free otherwise subtracts exactly; add_for has
no overflow guard, so an addition reaching the u64 bound is likewise a
fault. -/
theorem C10_unguarded_u64_arithmetic :
    (∀ (q : QuotaPer) (w : Nat), q.state < w → quotaPerLogic.free q w = none)
  ∧ (∀ (q : QuotaPer) (w : Nat), w ≤ q.state →
      quotaPerLogic.free q w = some ⟨q.quota, q.state - w, q.timeout⟩)
  ∧ (∀ (q : QuotaPer) (w : Nat), u64Bound ≤ q.state + w →
      quotaPerLogic.add_for q w = none) := by
  refine ⟨?_, ?_, ?_⟩
  · intro q w h
    rw [quotaPer_free_eq, if_neg (by omega)]
  · intro q w h
    rw [quotaPer_free_eq, if_pos h]
  · intro q w h
    rw [quotaPer_add_eq, if_neg (by omega)]

/-- C10 witness: freeing weight 1 at counter 0 faults (no clamp to 0);
freeing weight 2 at counter 3 subtracts to 1; adding weight 1 at counter
u64Bound - 1 faults. -/
theorem C10_unguarded_u64_arithmetic_witness :
    quotaPerLogic.free ⟨5, 0, 7⟩ 1 = none
    ∧ quotaPerLogic.free ⟨5, 3, 7⟩ 2 = some ⟨5, 1, 7⟩
    ∧ quotaPerLogic.add_for ⟨5, 18446744073709551615, 7⟩ 1 = none :=
  ⟨C10_unguarded_u64_arithmetic.1 ⟨5, 0, 7⟩ 1 (by decide),
    C10_unguarded_u64_arithmetic.2.1 ⟨5, 3, 7⟩ 2 (by decide),
    C10_unguarded_u64_arithmetic.2.2 ⟨5, 18446744073709551615, 7⟩ 1 (by decide)⟩
